import Mathlib

/-!
Verification of the pyQSC surface/Fourier core (src/qsc/plot.py and
src/qsc/to_vmec.py) against its natural-language specification.

The Python source is shallowly embedded over an abstract linear ordered
field `α`.  Floating point arithmetic is idealised as exact field
arithmetic; `np.cos`, `np.sin` and `np.pi` are abstracted as parameters
(instantiated with `Real.cos`, `Real.sin`, `Real.pi` for the concrete
counterexamples, and with rational dummies where a computable witness is
needed).  Cubic spline interpolants (`scipy.interpolate.UnivariateSpline`
with `k=3, s=0`) are abstracted as arbitrary functions of their argument:
every claim treated here depends only on how the code *uses* the
interpolant (in particular on the reduction of the evaluation point
modulo one field period), never on the interpolation rule itself.
-/

namespace PyQSC

/-! ## Mode-count selection in `to_vmec` (src/qsc/to_vmec.py, lines 73-83) -/

/-- The `mpol` value used by `to_vmec`: when `"mpol"` is absent from `params`,
`mpol = int(np.floor(min(ntheta / 2, mpol1d)))` with `mpol1d = 100`; when it is
present, `mpol = int(params["mpol"])` is used as-is (modelled as an integer
supplied by the caller). -/
def to_vmec_mpol (params_mpol : Option ℤ) (ntheta : ℕ) : ℤ :=
  match params_mpol with
  | none => ⌊min ((ntheta : ℚ) / 2) 100⌋
  | some v => v

/-- The `ntor` value used by `to_vmec`: when `"ntor"` is absent from `params`,
`ntor = int(min(self.nphi / 2 + 1, ntord))` with `ntord = 100` (Python `int`
truncates toward zero, which equals the floor on this nonnegative value); when
it is present, `ntor = int(params["ntor"])` is used as-is. -/
def to_vmec_ntor (params_ntor : Option ℤ) (nphi : ℕ) : ℤ :=
  match params_ntor with
  | none => ⌊min ((nphi : ℚ) / 2 + 1) 100⌋
  | some v => v

/-- The NTOR value written on the `NTOR = ...` header line of the VMEC input
file (src/qsc/to_vmec.py, line 137): `min(ntor, ntorMax)`.  The boundary
coefficient loop below does *not* use this capped value. -/
def ntor_written (ntor ntorMax : ℤ) : ℤ := min ntor ntorMax

/-! ## Boundary-record emission in `to_vmec` (src/qsc/to_vmec.py, lines 157-162)

The source loops over `m in range(mpol+1)` and `n in range(-ntor, ntor+1)`
(embedded as `k in range(2*ntor+1)` with `n = k - ntor`); whenever
`RBC[n+ntor,m] != 0 or ZBS[n+ntor,m] != 0` it writes one record holding the
pair `(RBC, ZBS)` at that mode and, if `lasym`, a second record holding
`(RBS, ZBC)` there.  A record is modelled as `(m, n, first, second)`. -/

/-- The list of boundary records written to the VMEC file, in file order. -/
def boundaryRecords {α : Type} [Zero α] [DecidableEq α]
    (RBC ZBS RBS ZBC : ℕ → ℕ → α) (mpol ntor : ℕ) (lasym : Bool) :
    List (ℕ × ℤ × α × α) :=
  (List.range (mpol + 1)).flatMap fun m =>
    (List.range (2 * ntor + 1)).flatMap fun k =>
      if RBC k m ≠ 0 ∨ ZBS k m ≠ 0 then
        (m, (k : ℤ) - ntor, RBC k m, ZBS k m) ::
          (if lasym then [(m, (k : ℤ) - ntor, RBS k m, ZBC k m)] else [])
      else []

/-- C8 (counterexample): an `ntor` supplied explicitly through `params` is used
as-is, so the value 150 is not clamped to the solver maximum 100. -/
theorem to_vmec_ntor_explicit_not_clamped :
    to_vmec_ntor (some 150) 60 = 150 ∧ ¬ to_vmec_ntor (some 150) 60 ≤ 100 := by
  constructor
  · rfl
  · decide

/-- C8 (amended): mode counts taken from the defaults are clamped to the
solver-imposed maximum 100, while explicitly supplied `mpol`/`ntor` values are
used exactly as given, without clamping. -/
theorem to_vmec_mode_counts_clamped_only_by_default (ntheta nphi : ℕ) (v : ℤ) :
    to_vmec_mpol none ntheta ≤ 100 ∧ to_vmec_ntor none nphi ≤ 100 ∧
      to_vmec_mpol (some v) ntheta = v ∧ to_vmec_ntor (some v) nphi = v := by
  refine ⟨?_, ?_, rfl, rfl⟩
  · have h : min ((ntheta : ℚ) / 2) 100 ≤ (100 : ℚ) := min_le_right _ _
    have := Int.floor_mono h
    simpa using this
  · have h : min ((nphi : ℚ) / 2 + 1) 100 ≤ (100 : ℚ) := min_le_right _ _
    have := Int.floor_mono h
    simpa using this

/-- C9 (counterexample): with `RBC` identically zero and `ZBS` identically one
(`mpol = ntor = 0`, symmetric case) the emission loop writes the single record
`(m, n, RBC, ZBS) = (0, 0, 0, 1)`, whose first coefficient is exactly zero —
refuting the claim that a record containing a zero coefficient is never
written. -/
theorem boundaryRecords_zero_coefficient_emitted :
    boundaryRecords (fun _ _ => (0 : ℚ)) (fun _ _ => 1) (fun _ _ => 0)
        (fun _ _ => 0) 0 0 false = [(0, 0, 0, 1)] ∧
      ¬ (∀ r ∈ boundaryRecords (fun _ _ => (0 : ℚ)) (fun _ _ => 1)
          (fun _ _ => 0) (fun _ _ => 0) 0 0 false, r.2.2.1 ≠ 0) := by
  constructor
  · rfl
  · decide

/-- C9 (amended): in the stellarator-symmetric case, every record the loop
emits has at least one of its two coefficients nonzero (the emission gate is
`RBC ≠ 0 or ZBS ≠ 0`); a mode at which both vanish produces no record, but a
single coefficient inside an emitted record may still be exactly zero. -/
theorem boundaryRecords_gate_nonzero {α : Type} [Zero α] [DecidableEq α]
    (RBC ZBS RBS ZBC : ℕ → ℕ → α) (mpol ntor : ℕ) :
    ∀ r ∈ boundaryRecords RBC ZBS RBS ZBC mpol ntor false,
      r.2.2.1 ≠ 0 ∨ r.2.2.2 ≠ 0 := by
  intro r hr
  unfold boundaryRecords at hr
  simp only [List.mem_flatMap, List.mem_range] at hr
  obtain ⟨m, _, k, _, hmem⟩ := hr
  by_cases hg : RBC k m ≠ 0 ∨ ZBS k m ≠ 0
  · rw [if_pos hg, if_neg (by simp)] at hmem
    simp only [List.mem_singleton] at hmem
    subst hmem
    exact hg
  · rw [if_neg hg] at hmem
    exact absurd hmem (List.not_mem_nil r)

/-- Witness for `boundaryRecords_gate_nonzero` at a concrete record of a
concrete spectrum. -/
theorem boundaryRecords_gate_nonzero_witness :
    ((0 : ℕ), (0 : ℤ), (1 : ℚ), (1 : ℚ)).2.2.1 ≠ 0 ∨
      ((0 : ℕ), (0 : ℤ), (1 : ℚ), (1 : ℚ)).2.2.2 ≠ 0 :=
  boundaryRecords_gate_nonzero (fun _ _ => 1) (fun _ _ => 1) (fun _ _ => 1)
    (fun _ _ => 1) 0 0 (0, 0, 1, 1) (by decide)

/-! ## The discrete Fourier decomposition `to_Fourier` (src/qsc/to_vmec.py, lines 10-58)

The function is embedded over an abstract field `α`; `np.pi`, `np.cos` and
`np.sin` are carried as the parameters `pi`, `cosF`, `sinF`.  The grids are
`theta = np.linspace(0, 2*pi, ntheta, endpoint=False)` and
`phi = np.linspace(0, 2*pi/nfp, nphi, endpoint=False)` where
`nphi = R_2D.shape[1]` is carried as an explicit field.  The `np.zeros`
matrices are embedded as total functions `ℕ → ℕ → α` that are zero
everywhere (indices outside the allocated `(2*ntor+1) × (mpol+1)` block are
never written by the loop). -/

/-- The inputs of `to_Fourier`, bundled.  `R j_theta j_phi` and
`Z j_theta j_phi` are the sample grids `R_2D`, `Z_2D`. -/
structure FParams (α : Type) where
  R : ℕ → ℕ → α
  Z : ℕ → ℕ → α
  nfp : ℕ
  ntheta : ℕ
  nphi : ℕ
  mpol : ℕ
  ntor : ℕ
  pi : α
  cosF : α → α
  sinF : α → α
  lasym : Bool

variable {α : Type}

/-- `theta[j] = np.linspace(0, 2*pi, ntheta, endpoint=False)[j] = 2*pi*j/ntheta`. -/
def FParams.thetaGrid [Field α] (P : FParams α) (j : ℕ) : α :=
  2 * P.pi * j / P.ntheta

/-- `phi_conversion[j] = np.linspace(0, 2*pi/nfp, nphi, endpoint=False)[j]`. -/
def FParams.phiGrid [Field α] (P : FParams α) (j : ℕ) : α :=
  (2 * P.pi / P.nfp) * j / P.nphi

/-- `angle = m * theta[j_theta] - n * nfp * phi_conversion[j_phi]` (line 40). -/
def FParams.angle [Field α] (P : FParams α) (m : ℕ) (n : ℤ) (jt jp : ℕ) : α :=
  (m : α) * P.thetaGrid jt - (n : α) * P.nfp * P.phiGrid jp

/-- The per-term scale `factor2` (lines 33, 43-46): the base value is
`factor = 2 / (ntheta * nphi)`; it is halved when `ntheta` is even and
`m == ntheta/2`, and halved again when `nphi` is even and `abs(n) == nphi/2`. -/
def FParams.factor2 [Field α] (P : FParams α) (m : ℕ) (n : ℤ) : α :=
  let f := 2 / ((P.ntheta : α) * P.nphi)
  let f1 := if P.ntheta % 2 = 0 ∧ 2 * m = P.ntheta then f / 2 else f
  if P.nphi % 2 = 0 ∧ 2 * n.natAbs = P.nphi then f1 / 2 else f1

/-- Write `v` into cell `(i, j)` of matrix `M`, leaving all other cells. -/
def cellUpd (M : ℕ → ℕ → α) (i j : ℕ) (v : α) : ℕ → ℕ → α :=
  fun i' j' => if i' = i ∧ j' = j then v else M i' j'

/-- The four accumulator matrices `RBC`, `RBS`, `ZBC`, `ZBS` of `to_Fourier`. -/
structure FourState (α : Type) where
  RBC : ℕ → ℕ → α
  RBS : ℕ → ℕ → α
  ZBC : ℕ → ℕ → α
  ZBS : ℕ → ℕ → α

/-- One accumulation `M[n+ntor, m] += sample[j_theta, j_phi] * trig(angle) * factor2`
into a single matrix (one of the four assignments on lines 47-50). -/
def matStep [Field α] (P : FParams α) (sample : ℕ → ℕ → α) (trig : α → α)
    (jp jt m : ℕ) (M : ℕ → ℕ → α) (n : ℤ) : ℕ → ℕ → α :=
  cellUpd M (n + P.ntor).toNat m
    (M (n + P.ntor).toNat m + sample jt jp * trig (P.angle m n jt jp) * P.factor2 m n)

/-- The loop body for one `(j_phi, j_theta, m, n)` iteration: the four
accumulations of lines 47-50 (cosine with `R`, sine with `R`, cosine with `Z`,
sine with `Z`, all at cell `(n+ntor, m)`). -/
def bodyStep [Field α] (P : FParams α) (jp jt m : ℕ) (s : FourState α) (n : ℤ) :
    FourState α :=
  { RBC := matStep P P.R P.cosF jp jt m s.RBC n
    RBS := matStep P P.R P.sinF jp jt m s.RBS n
    ZBC := matStep P P.Z P.cosF jp jt m s.ZBC n
    ZBS := matStep P P.Z P.sinF jp jt m s.ZBS n }

/-- The toroidal mode range of the innermost loop (lines 37-39):
`range(nmin, ntor+1)` with `nmin = 1` when `m == 0` and `nmin = -ntor`
otherwise. -/
def nRange (ntor : ℕ) (m : ℕ) : List ℤ :=
  if m = 0 then (List.range ntor).map (fun (k : ℕ) => (k : ℤ) + 1)
  else (List.range (2 * ntor + 1)).map (fun (k : ℕ) => (k : ℤ) - ntor)

/-- The two inner loops (over `m` and `n`) at a fixed grid point. -/
def innerLoops [Field α] (P : FParams α) (jp jt : ℕ) (s : FourState α) :
    FourState α :=
  (List.range (P.mpol + 1)).foldl
    (fun s m => (nRange P.ntor m).foldl (bodyStep P jp jt m) s) s

/-- The full quadruple accumulation loop of `to_Fourier` (lines 34-50),
starting from the `np.zeros` matrices. -/
def fourLoop [Field α] (P : FParams α) : FourState α :=
  (List.range P.nphi).foldl
    (fun s jp => (List.range P.ntheta).foldl (fun s jt => innerLoops P jp jt s) s)
    ⟨fun _ _ => 0, fun _ _ => 0, fun _ _ => 0, fun _ _ => 0⟩

/-- `np.sum` of a sample grid: the sum of all `ntheta * nphi` entries. -/
def gridSum [Field α] (sample : ℕ → ℕ → α) (ntheta nphi : ℕ) : α :=
  ∑ jt ∈ Finset.range ntheta, ∑ jp ∈ Finset.range nphi, sample jt jp

/-- A Python value that is either the integer scalar `0` (what `RBS = 0` and
`ZBC = 0` on lines 55-56 rebind) or a 2-D array. -/
inductive PyVal (α : Type) where
  | scalar (z : ℤ)
  | arr (M : ℕ → ℕ → α)

/-- Reading a `PyVal` at an index pair; a scalar broadcasts to every index
(numpy broadcast semantics). -/
def PyVal.get [IntCast α] : PyVal α → ℕ → ℕ → α
  | scalar z, _, _ => (z : α)
  | arr M, i, j => M i j

/-- `ndarray.transpose()`.  The scalar case is unreachable in `to_vmec`
(`transpose` is only invoked on values that are arrays there); it is mapped to
itself to keep the function total. -/
def PyVal.transpose : PyVal α → PyVal α
  | scalar z => scalar z
  | arr M => arr fun i j => M j i

/-- Whether a returned component is an array (as opposed to the scalar `0`). -/
def PyVal.isArr : PyVal α → Bool
  | scalar _ => false
  | arr _ => true

/-- The quadruple returned by `to_Fourier`. -/
structure FourResult (α : Type) where
  RBC : PyVal α
  RBS : PyVal α
  ZBC : PyVal α
  ZBS : PyVal α

/-- The function `to_Fourier` (lines 10-58): run the accumulation loop, then
overwrite the mean modes `RBC[ntor,0]` and `ZBC[ntor,0]` with
`np.sum(R_2D) / (ntheta*nphi)` resp. `np.sum(Z_2D) / (ntheta*nphi)`
(lines 51-52), then, if `not lasym`, rebind `RBS` and `ZBC` to the integer
scalar `0` (lines 54-56). -/
def to_Fourier [Field α] (P : FParams α) : FourResult α :=
  let s := fourLoop P
  let rbc := cellUpd s.RBC P.ntor 0
    (gridSum P.R P.ntheta P.nphi / ((P.ntheta : α) * P.nphi))
  let zbc := cellUpd s.ZBC P.ntor 0
    (gridSum P.Z P.ntheta P.nphi / ((P.ntheta : α) * P.nphi))
  { RBC := .arr rbc
    RBS := if P.lasym then .arr s.RBS else .scalar 0
    ZBC := if P.lasym then .arr zbc else .scalar 0
    ZBS := .arr s.ZBS }

/-- The attribute-storing epilogue of `to_vmec` (src/qsc/to_vmec.py, lines
166-173): `self.RBC` and `self.ZBS` always receive the transposed arrays;
`self.RBS` and `self.ZBC` are transposed only when `lasym`, and otherwise
stored exactly as returned (the scalar `0`). -/
def to_vmec_stored (res : FourResult α) (lasym : Bool) : FourResult α :=
  { RBC := res.RBC.transpose
    ZBS := res.ZBS.transpose
    RBS := if lasym then res.RBS.transpose else res.RBS
    ZBC := if lasym then res.ZBC.transpose else res.ZBC }

/-! ## Characterisation of the accumulation loop -/

/-- The admissible mode set of the loop: `m` ranges over `[0, mpol]` and `n`
over `[-ntor, ntor]`, except that for `m = 0` the range is `[1, ntor]`. -/
def admissible (mpol ntor : ℕ) (m : ℕ) (n : ℤ) : Prop :=
  m ≤ mpol ∧
    ((m = 0 ∧ 1 ≤ n ∧ n ≤ (ntor : ℤ)) ∨
      (m ≠ 0 ∧ -(ntor : ℤ) ≤ n ∧ n ≤ (ntor : ℤ)))

instance (mpol ntor : ℕ) (m : ℕ) (n : ℤ) : Decidable (admissible mpol ntor m n) := by
  unfold admissible
  infer_instance

/-- The total contribution accumulated into the cell of mode `(m, n)`:
the sum over all grid points of `sample * trig(angle) * factor2`. -/
def cellSum [Field α] (P : FParams α) (sample : ℕ → ℕ → α) (trig : α → α)
    (m : ℕ) (n : ℤ) : α :=
  ∑ jp ∈ Finset.range P.nphi, ∑ jt ∈ Finset.range P.ntheta,
    sample jt jp * trig (P.angle m n jt jp) * P.factor2 m n

/-- The accumulation loop restricted to a single matrix (one of the four
identical per-matrix accumulations of `fourLoop`). -/
def matLoop [Field α] (P : FParams α) (sample : ℕ → ℕ → α) (trig : α → α) :
    ℕ → ℕ → α :=
  (List.range P.nphi).foldl
    (fun M jp => (List.range P.ntheta).foldl
      (fun M jt => (List.range (P.mpol + 1)).foldl
        (fun M m => (nRange P.ntor m).foldl (matStep P sample trig jp jt m) M) M) M)
    (fun _ _ => 0)

/-- A fold on a composite state projects to a fold on one component whenever
the step respects the projection. -/
theorem foldl_proj {σ ι : Type} (proj : σ → ℕ → ℕ → α) (l : List ι)
    (G : σ → ι → σ) (F : (ℕ → ℕ → α) → ι → (ℕ → ℕ → α))
    (h : ∀ s x, proj (G s x) = F (proj s) x) :
    ∀ s, proj (l.foldl G s) = l.foldl F (proj s) := by
  induction l with
  | nil => intro s; rfl
  | cons x xs ih => intro s; rw [List.foldl_cons, List.foldl_cons, ih, h]

/-- A fold whose every step adds a state-independent quantity to the observed
cell yields the starting value plus the sum of those quantities. -/
theorem foldl_shape [Field α] {ι : Type} (l : List ι)
    (F : (ℕ → ℕ → α) → ι → (ℕ → ℕ → α)) (g : ι → α) (i j : ℕ)
    (h : ∀ M x, F M x i j = M i j + g x) :
    ∀ M : ℕ → ℕ → α, (l.foldl F M) i j = M i j + (l.map g).sum := by
  induction l with
  | nil => intro M; simp
  | cons x xs ih =>
    intro M
    rw [List.foldl_cons, ih, h, List.map_cons, List.sum_cons, add_assoc]

theorem fourLoop_RBC [Field α] (P : FParams α) :
    (fourLoop P).RBC = matLoop P P.R P.cosF := by
  unfold fourLoop matLoop
  exact foldl_proj FourState.RBC _ _ _
    (fun s jp => foldl_proj FourState.RBC _ _ _
      (fun s jt => foldl_proj FourState.RBC _ _ _
        (fun s m => foldl_proj FourState.RBC (nRange P.ntor m)
          (bodyStep P jp jt m) (matStep P P.R P.cosF jp jt m)
          (fun s n => rfl) s) s) s) _

theorem fourLoop_RBS [Field α] (P : FParams α) :
    (fourLoop P).RBS = matLoop P P.R P.sinF := by
  unfold fourLoop matLoop
  exact foldl_proj FourState.RBS _ _ _
    (fun s jp => foldl_proj FourState.RBS _ _ _
      (fun s jt => foldl_proj FourState.RBS _ _ _
        (fun s m => foldl_proj FourState.RBS (nRange P.ntor m)
          (bodyStep P jp jt m) (matStep P P.R P.sinF jp jt m)
          (fun s n => rfl) s) s) s) _

theorem fourLoop_ZBC [Field α] (P : FParams α) :
    (fourLoop P).ZBC = matLoop P P.Z P.cosF := by
  unfold fourLoop matLoop
  exact foldl_proj FourState.ZBC _ _ _
    (fun s jp => foldl_proj FourState.ZBC _ _ _
      (fun s jt => foldl_proj FourState.ZBC _ _ _
        (fun s m => foldl_proj FourState.ZBC (nRange P.ntor m)
          (bodyStep P jp jt m) (matStep P P.Z P.cosF jp jt m)
          (fun s n => rfl) s) s) s) _

theorem fourLoop_ZBS [Field α] (P : FParams α) :
    (fourLoop P).ZBS = matLoop P P.Z P.sinF := by
  unfold fourLoop matLoop
  exact foldl_proj FourState.ZBS _ _ _
    (fun s jp => foldl_proj FourState.ZBS _ _ _
      (fun s jt => foldl_proj FourState.ZBS _ _ _
        (fun s m => foldl_proj FourState.ZBS (nRange P.ntor m)
          (bodyStep P jp jt m) (matStep P P.Z P.sinF jp jt m)
          (fun s n => rfl) s) s) s) _

theorem matStep_cell [Field α] (P : FParams α) (sample : ℕ → ℕ → α)
    (trig : α → α) (jp jt m : ℕ) (M : ℕ → ℕ → α) (n : ℤ) (i j : ℕ) :
    matStep P sample trig jp jt m M n i j =
      M i j + (if i = (n + P.ntor).toNat ∧ j = m then
        sample jt jp * trig (P.angle m n jt jp) * P.factor2 m n else 0) := by
  unfold matStep cellUpd
  by_cases h : i = (n + P.ntor).toNat ∧ j = m
  · obtain ⟨h1, h2⟩ := h
    subst h1; subst h2
    simp
  · rw [if_neg h, if_neg h, add_zero]

/-- Summing an indicator that holds at exactly one point of `List.range`. -/
theorem list_range_sum_ite_eq [Field α] (N K : ℕ) (A : ℕ → α) :
    ((List.range N).map (fun k => if k = K then A k else 0)).sum =
      if K < N then A K else 0 := by
  induction N with
  | zero => simp
  | succ N ih =>
    rw [List.range_succ, List.map_append, List.sum_append, ih]
    by_cases hKN : K < N
    · have h1 : ¬ N = K := by omega
      have h2 : K < N + 1 := by omega
      simp [h1, hKN, h2]
    · by_cases hNK : N = K
      · subst hNK
        simp [hKN]
      · have h2 : ¬ K < N + 1 := by omega
        simp [hKN, hNK, h2]

/-- The indicator-sum lemma transported along a condition with a unique
solution. -/
theorem list_range_sum_ite_unique [Field α] (N : ℕ) (Q : ℕ → Prop)
    [DecidablePred Q] (K : ℕ) (A : ℕ → α) (hQ : ∀ k, Q k ↔ k = K) :
    ((List.range N).map (fun k => if Q k then A k else 0)).sum =
      if K < N then A K else 0 := by
  have he : ∀ k, (if Q k then A k else 0) = (if k = K then A k else 0) := by
    intro k
    by_cases h : Q k
    · rw [if_pos h, if_pos ((hQ k).mp h)]
    · rw [if_neg h, if_neg (fun he => h ((hQ k).mpr he))]
  calc ((List.range N).map (fun k => if Q k then A k else 0)).sum
      = ((List.range N).map (fun k => if k = K then A k else 0)).sum := by
        exact congrArg List.sum (List.map_congr_left (fun k _ => he k))
    _ = if K < N then A K else 0 := list_range_sum_ite_eq N K A

theorem list_sum_zero_of_all [Field α] {ι : Type} (l : List ι) (f : ι → α)
    (h : ∀ x ∈ l, f x = 0) : (l.map f).sum = 0 := by
  induction l with
  | nil => rfl
  | cons x xs ih =>
    rw [List.map_cons, List.sum_cons, h x (List.mem_cons_self x xs),
      ih (fun y hy => h y (List.mem_cons_of_mem x hy)), add_zero]

theorem list_range_map_sum [Field α] (n : ℕ) (f : ℕ → α) :
    ((List.range n).map f).sum = ∑ i ∈ Finset.range n, f i := by
  induction n with
  | zero => simp
  | succ n ih =>
    rw [List.range_succ, List.map_append, List.sum_append, ih,
      Finset.sum_range_succ]
    simp

/-- Variant of the indicator-sum lemma for a transformed range. -/
theorem list_range_map_sum_ite_unique [Field α] {β : Type} (N : ℕ) (h : ℕ → β)
    (Q : β → Prop) [DecidablePred Q] (K : ℕ) (A : β → α)
    (hQ : ∀ k, Q (h k) ↔ k = K) :
    (((List.range N).map h).map (fun n => if Q n then A n else 0)).sum =
      if K < N then A (h K) else 0 := by
  induction N with
  | zero => simp
  | succ N ih =>
    rw [List.range_succ, List.map_append, List.map_append, List.sum_append, ih]
    by_cases hKN : K < N
    · have h1 : ¬ Q (h N) := fun hq => absurd ((hQ N).mp hq) (by omega)
      have h2 : K < N + 1 := by omega
      simp [h1, hKN, h2]
    · by_cases hNK : N = K
      · subst hNK
        have h1 : Q (h N) := (hQ N).mpr rfl
        simp [h1, hKN]
      · have h1 : ¬ Q (h N) := fun hq => hNK ((hQ N).mp hq)
        have h2 : ¬ K < N + 1 := by omega
        simp [h1, hKN, h2]

/-- Evaluating the indicator sum over one toroidal mode range: the cell with
row `i` receives the term of `n = i - ntor` exactly when that `n` lies in the
admissible range for `m`. -/
theorem nRange_sum_ite [Field α] (ntor m i : ℕ) (A : ℤ → α) :
    ((nRange ntor m).map
        (fun n => if i = (n + (ntor : ℤ)).toNat then A n else 0)).sum =
      if (m = 0 ∧ ntor + 1 ≤ i ∧ i ≤ 2 * ntor) ∨ (m ≠ 0 ∧ i ≤ 2 * ntor)
      then A ((i : ℤ) - ntor) else 0 := by
  unfold nRange
  by_cases hm : m = 0
  · rw [if_pos hm]
    by_cases hi : ntor + 1 ≤ i ∧ i ≤ 2 * ntor
    · rw [list_range_map_sum_ite_unique ntor (fun k => (k : ℤ) + 1)
        (fun n => i = (n + (ntor : ℤ)).toNat) (i - ntor - 1) A
        (fun k => by beta_reduce; omega)]
      rw [if_pos (by omega),
        show (((i - ntor - 1 : ℕ) : ℤ) + 1) = (i : ℤ) - ntor from by omega,
        if_pos (Or.inl ⟨hm, hi.1, hi.2⟩)]
    · rw [list_sum_zero_of_all _ _ (fun n hn => ?_), if_neg (by omega)]
      obtain ⟨k, hk, rfl⟩ := List.mem_map.mp hn
      have hk2 := List.mem_range.mp hk
      exact if_neg (by omega)
  · rw [if_neg hm]
    rw [list_range_map_sum_ite_unique (2 * ntor + 1) (fun k => (k : ℤ) - ntor)
      (fun n => i = (n + (ntor : ℤ)).toNat) i A (fun k => by beta_reduce; omega)]
    by_cases h2 : i ≤ 2 * ntor
    · rw [if_pos (by omega), if_pos (Or.inr ⟨hm, h2⟩)]
    · rw [if_neg (by omega), if_neg (by omega)]

/-- Evaluating the indicator double sum over the two inner loops: the cell
`(i, j)` receives exactly the term of mode `(m, n) = (j, i - ntor)`, when that
mode is admissible. -/
theorem inner_mn_sum [Field α] (P : FParams α) (sample : ℕ → ℕ → α)
    (trig : α → α) (jp jt i j : ℕ) :
    ((List.range (P.mpol + 1)).map (fun m => ((nRange P.ntor m).map
        (fun n => if i = (n + (P.ntor : ℤ)).toNat ∧ j = m then
          sample jt jp * trig (P.angle m n jt jp) * P.factor2 m n else 0)).sum)).sum =
      if admissible P.mpol P.ntor j ((i : ℤ) - P.ntor)
      then sample jt jp * trig (P.angle j ((i : ℤ) - P.ntor) jt jp) *
        P.factor2 j ((i : ℤ) - P.ntor)
      else 0 := by
  have hsplit : ∀ m, ((nRange P.ntor m).map
      (fun n => if i = (n + (P.ntor : ℤ)).toNat ∧ j = m then
        sample jt jp * trig (P.angle m n jt jp) * P.factor2 m n else 0)).sum =
      if j = m then ((nRange P.ntor m).map
        (fun n => if i = (n + (P.ntor : ℤ)).toNat then
          sample jt jp * trig (P.angle m n jt jp) * P.factor2 m n else 0)).sum
      else 0 := by
    intro m
    by_cases hjm : j = m
    · rw [if_pos hjm]
      refine congrArg List.sum (List.map_congr_left (fun n _ => ?_))
      exact if_congr (and_iff_left hjm) rfl rfl
    · rw [if_neg hjm]
      exact list_sum_zero_of_all _ _ (fun n _ => if_neg (fun h => hjm h.2))
  rw [List.map_congr_left (fun m _ => hsplit m),
    list_range_sum_ite_unique (P.mpol + 1) _ j _ (fun m => eq_comm),
    nRange_sum_ite]
  by_cases hadm : admissible P.mpol P.ntor j ((i : ℤ) - P.ntor)
  · have h1 : j < P.mpol + 1 := by
      unfold admissible at hadm
      omega
    have h2 : (j = 0 ∧ P.ntor + 1 ≤ i ∧ i ≤ 2 * P.ntor) ∨
        (j ≠ 0 ∧ i ≤ 2 * P.ntor) := by
      unfold admissible at hadm
      omega
    rw [if_pos h1, if_pos h2, if_pos hadm]
  · rw [if_neg hadm]
    by_cases h1 : j < P.mpol + 1
    · rw [if_pos h1, if_neg (by
        unfold admissible at hadm
        omega)]
    · rw [if_neg h1]

/-- Closed form of a single accumulation matrix: the cell `(i, j)` of the loop
result holds the full grid sum for mode `(m, n) = (j, i - ntor)` when
admissible, and `0` otherwise. -/
theorem matLoop_cell [Field α] (P : FParams α) (sample : ℕ → ℕ → α)
    (trig : α → α) (i j : ℕ) :
    matLoop P sample trig i j =
      if admissible P.mpol P.ntor j ((i : ℤ) - P.ntor)
      then cellSum P sample trig j ((i : ℤ) - P.ntor) else 0 := by
  have hn : ∀ (jp jt m : ℕ) (M : ℕ → ℕ → α),
      ((nRange P.ntor m).foldl (matStep P sample trig jp jt m) M) i j =
        M i j + ((nRange P.ntor m).map
          (fun n => if i = (n + (P.ntor : ℤ)).toNat ∧ j = m then
            sample jt jp * trig (P.angle m n jt jp) * P.factor2 m n else 0)).sum :=
    fun jp jt m => foldl_shape _ _ _ i j
      (fun M n => matStep_cell P sample trig jp jt m M n i j)
  have hm : ∀ (jp jt : ℕ) (M : ℕ → ℕ → α),
      ((List.range (P.mpol + 1)).foldl
        (fun M m => (nRange P.ntor m).foldl (matStep P sample trig jp jt m) M) M) i j =
        M i j + (if admissible P.mpol P.ntor j ((i : ℤ) - P.ntor)
          then sample jt jp * trig (P.angle j ((i : ℤ) - P.ntor) jt jp) *
            P.factor2 j ((i : ℤ) - P.ntor)
          else 0) := by
    intro jp jt M
    rw [foldl_shape _ _ _ i j (fun M m => hn jp jt m M), inner_mn_sum]
  have ht : ∀ (jp : ℕ) (M : ℕ → ℕ → α),
      ((List.range P.ntheta).foldl
        (fun M jt => (List.range (P.mpol + 1)).foldl
          (fun M m => (nRange P.ntor m).foldl (matStep P sample trig jp jt m) M) M) M) i j =
        M i j + ((List.range P.ntheta).map
          (fun jt => if admissible P.mpol P.ntor j ((i : ℤ) - P.ntor)
            then sample jt jp * trig (P.angle j ((i : ℤ) - P.ntor) jt jp) *
              P.factor2 j ((i : ℤ) - P.ntor)
            else 0)).sum :=
    fun jp => foldl_shape _ _ _ i j (fun M jt => hm jp jt M)
  unfold matLoop
  rw [foldl_shape _ _ _ i j (fun M jp => ht jp M)]
  by_cases hadm : admissible P.mpol P.ntor j ((i : ℤ) - P.ntor)
  · simp only [if_pos hadm]
    rw [list_range_map_sum, zero_add]
    unfold cellSum
    exact Finset.sum_congr rfl (fun jp _ => list_range_map_sum _ _)
  · simp only [if_neg hadm]
    rw [list_sum_zero_of_all _ _ (fun jp _ =>
      list_sum_zero_of_all _ _ (fun jt _ => rfl)), add_zero]

/-! ## Claims C3, C4, C5, C6 and C10 -/

/-- C3: the scale factor of every accumulated term: `factor2` is the base
`2/(ntheta*nphi)`, halved when `ntheta` is even and `m = ntheta/2`, and
independently halved again when `nphi` is even and `|n| = nphi/2`; both
halvings apply to a term satisfying both conditions, and no other term's
scale is modified. -/
theorem factor2_nyquist_halving [Field α] (P : FParams α) (m : ℕ) (n : ℤ) :
    P.factor2 m n =
      2 / ((P.ntheta : α) * P.nphi) *
        (if P.ntheta % 2 = 0 ∧ 2 * m = P.ntheta then 1 / 2 else 1) *
        (if P.nphi % 2 = 0 ∧ 2 * n.natAbs = P.nphi then 1 / 2 else 1) := by
  unfold FParams.factor2
  dsimp only []
  split_ifs <;> ring

/-- C6: the accumulation loop of `to_Fourier`, characterised cell by cell:
writing `n := i - ntor` and `m := j`, each of the four matrices holds, at cell
`(i, j) = (n + ntor, m)`, the sum over all grid points of
`sample * trig(m*theta[j_theta] - n*nfp*phi[j_phi]) * factor2(m, n)` exactly
when `m ∈ [0, mpol]` and `n ∈ [-ntor, ntor]` (restricted to `n ∈ [1, ntor]`
when `m = 0`), and `0` at every other cell; cosine terms go to `RBC`/`ZBC`
with the `R`/`Z` samples, sine terms to `RBS`/`ZBS`. -/
theorem to_Fourier_loop_accumulation [Field α] (P : FParams α) (i j : ℕ) :
    ((fourLoop P).RBC i j =
      if admissible P.mpol P.ntor j ((i : ℤ) - P.ntor)
      then cellSum P P.R P.cosF j ((i : ℤ) - P.ntor) else 0) ∧
    ((fourLoop P).RBS i j =
      if admissible P.mpol P.ntor j ((i : ℤ) - P.ntor)
      then cellSum P P.R P.sinF j ((i : ℤ) - P.ntor) else 0) ∧
    ((fourLoop P).ZBC i j =
      if admissible P.mpol P.ntor j ((i : ℤ) - P.ntor)
      then cellSum P P.Z P.cosF j ((i : ℤ) - P.ntor) else 0) ∧
    ((fourLoop P).ZBS i j =
      if admissible P.mpol P.ntor j ((i : ℤ) - P.ntor)
      then cellSum P P.Z P.sinF j ((i : ℤ) - P.ntor) else 0) :=
  ⟨by rw [fourLoop_RBC]; exact matLoop_cell P P.R P.cosF i j,
   by rw [fourLoop_RBS]; exact matLoop_cell P P.R P.sinF i j,
   by rw [fourLoop_ZBC]; exact matLoop_cell P P.Z P.cosF i j,
   by rw [fourLoop_ZBS]; exact matLoop_cell P P.Z P.sinF i j⟩

/-- C4: for a stellarator-symmetric input (`lasym = false`), the sine-R and
cosine-Z components returned by `to_Fourier` are the scalar zero — zero at
every mode index under broadcast reading — regardless of what the raw
accumulation sums would have produced. -/
theorem to_Fourier_symmetric_sine_R_cosine_Z_zero [Field α] (P : FParams α) :
    (to_Fourier {P with lasym := false}).RBS = PyVal.scalar 0 ∧
    (to_Fourier {P with lasym := false}).ZBC = PyVal.scalar 0 ∧
    (∀ i j, ((to_Fourier {P with lasym := false}).RBS).get i j = 0) ∧
    (∀ i j, ((to_Fourier {P with lasym := false}).ZBC).get i j = 0) := by
  refine ⟨rfl, rfl, fun i j => ?_, fun i j => ?_⟩ <;>
    simp [to_Fourier, PyVal.get]

/-- The concrete `to_Fourier` input used to refute C5: a 1×1 all-ones grid,
`mpol = ntor = 0`, symmetric. -/
def fparC5 : FParams ℚ where
  R := fun _ _ => 1
  Z := fun _ _ => 1
  nfp := 1
  ntheta := 1
  nphi := 1
  mpol := 0
  ntor := 0
  pi := 0
  cosF := fun _ => 1
  sinF := fun _ => 0
  lasym := false

/-- C5 (counterexample): on a symmetric input whose `Z` grid has mean 1, the
returned `ZBC` is the scalar zero, so `ZBC[ntor, 0]` is `0` and not the
arithmetic mean of `Z_2D`. -/
theorem to_Fourier_ZBC_dc_not_mean_when_symmetric :
    (to_Fourier fparC5).ZBC.get fparC5.ntor 0 = 0 ∧
      gridSum fparC5.Z fparC5.ntheta fparC5.nphi /
        ((fparC5.ntheta : ℚ) * fparC5.nphi) = 1 ∧
      (to_Fourier fparC5).ZBC.get fparC5.ntor 0 ≠
        gridSum fparC5.Z fparC5.ntheta fparC5.nphi /
          ((fparC5.ntheta : ℚ) * fparC5.nphi) := by
  refine ⟨?_, ?_, ?_⟩
  · simp [to_Fourier, fparC5, PyVal.get]
  · simp [gridSum, fparC5]
  · simp [to_Fourier, gridSum, fparC5, PyVal.get]

/-- C5 (amended): the returned `RBC[ntor, 0]` always equals the arithmetic
mean of the `R` grid samples, independently of `mpol` and `ntor`; the returned
`ZBC[ntor, 0]` equals the arithmetic mean of the `Z` grid whenever the input
is asymmetric (`lasym = true`) — in the symmetric case the returned `ZBC` is
instead zeroed by the symmetry policy. -/
theorem to_Fourier_dc_mean [Field α] (P : FParams α) :
    (to_Fourier P).RBC.get P.ntor 0 =
      gridSum P.R P.ntheta P.nphi / ((P.ntheta : α) * P.nphi) ∧
    (to_Fourier {P with lasym := true}).ZBC.get P.ntor 0 =
      gridSum P.Z P.ntheta P.nphi / ((P.ntheta : α) * P.nphi) := by
  constructor <;> simp [to_Fourier, PyVal.get, cellUpd]

/-- C10: the shape of the returned spectrum depends on the symmetry flag:
with `lasym = false`, `to_Fourier` returns `RBS` and `ZBC` as the integer
scalar `0` while `RBC` and `ZBS` are arrays (with `lasym = true` all four are
arrays); correspondingly `to_vmec` stores `RBC`/`ZBS` transposed but stores
`RBS`/`ZBC` untransposed — still the scalar — in the symmetric case. -/
theorem to_Fourier_return_shape [Field α] (P : FParams α) :
    (to_Fourier {P with lasym := false}).RBS = PyVal.scalar 0 ∧
    (to_Fourier {P with lasym := false}).ZBC = PyVal.scalar 0 ∧
    (to_Fourier {P with lasym := false}).RBC.isArr = true ∧
    (to_Fourier {P with lasym := false}).ZBS.isArr = true ∧
    (to_Fourier {P with lasym := true}).RBS.isArr = true ∧
    (to_Fourier {P with lasym := true}).ZBC.isArr = true ∧
    (to_vmec_stored (to_Fourier {P with lasym := false}) false).RBS =
      PyVal.scalar 0 ∧
    (to_vmec_stored (to_Fourier {P with lasym := false}) false).ZBC =
      PyVal.scalar 0 ∧
    (to_vmec_stored (to_Fourier {P with lasym := false}) false).RBC.isArr = true ∧
    (to_vmec_stored (to_Fourier {P with lasym := false}) false).ZBS.isArr = true :=
  ⟨rfl, rfl, rfl, rfl, rfl, rfl, rfl, rfl, rfl, rfl⟩

/-! ## The near-axis surface evaluation of `plot` (src/qsc/plot.py, lines 34-115 and 149-154)

`np.cos`, `np.sin`, `np.pi` are abstracted as a `Trig` bundle whose members
satisfy the `2*pi`-periodicity that the real functions satisfy; the concrete
instance used for counterexamples is `Real.cos`/`Real.sin`/`Real.pi`.
Every cubic spline interpolant `sp = spline(self.phi, self.<data>, k=3, s=0)`
is abstracted as an arbitrary function `sp_<data> : α → α` of its evaluation
point; the wrapper closures of the source (`tangentR`, ..., `X1cF`, ...,
`B20F`) are embedded faithfully as `sp_<data>` composed with the reduction
`np.mod(phi, 2*np.pi/self.nfp)` of their argument. -/

/-- The trigonometric environment: `np.pi`, `np.cos`, `np.sin` together with
the `2*pi*k`-periodicity both functions enjoy. -/
structure Trig (α : Type) [Field α] where
  pi : α
  cosF : α → α
  sinF : α → α
  cos_period : ∀ (x : α) (k : ℤ), cosF (x + 2 * pi * k) = cosF x
  sin_period : ∀ (x : α) (k : ℤ), sinF (x + 2 * pi * k) = sinF x

/-- `np.mod(x, T) = x - T * floor(x / T)` (the numpy convention for `T > 0`;
for `T = 0` numpy returns `0` with a warning, while this embedding returns
`x` — the difference is irrelevant here because the argument reduction is
only composed with an arbitrary abstract spline function). -/
def npmod [LinearOrderedField α] [FloorRing α] (x T : α) : α :=
  x - T * ⌊x / T⌋

theorem npmod_add_right [LinearOrderedField α] [FloorRing α] (x T : α) :
    npmod (x + T) T = npmod x T := by
  unfold npmod
  by_cases hT : T = 0
  · simp [hT]
  · have hdiv : (x + T) / T = x / T + 1 := by field_simp
    rw [hdiv, Int.floor_add_one]
    push_cast
    ring

/-- The configuration object read by `plot` (the `self` attributes), together
with the abstracted spline interpolants built on lines 36-95. -/
structure Qsc (α : Type) [Field α] where
  tr : Trig α
  nfp : ℕ
  rc : List α
  zs : List α
  iota : α
  iotaN : α
  order : String
  B0 : α
  etabar : α
  B2c : α
  B2s : α
  sp_tangentR : α → α
  sp_tangentZ : α → α
  sp_normalR : α → α
  sp_normalZ : α → α
  sp_binormalR : α → α
  sp_binormalZ : α → α
  sp_X1c : α → α
  sp_X1s : α → α
  sp_Y1c : α → α
  sp_Y1s : α → α
  sp_X20 : α → α
  sp_X2c : α → α
  sp_X2s : α → α
  sp_Y20 : α → α
  sp_Y2c : α → α
  sp_Y2s : α → α
  sp_Z20 : α → α
  sp_Z2c : α → α
  sp_Z2s : α → α
  sp_B20 : α → α

variable [LinearOrderedField α] [FloorRing α]

/-- `Raxisf(phi) = sum(rc[i]*np.cos(i*nfp*phi) for i in range(len(rc)))`. -/
def Qsc.Raxisf (c : Qsc α) (phi : α) : α :=
  (c.rc.enum.map (fun p => p.2 * c.tr.cosF (p.1 * c.nfp * phi))).sum

/-- `Zaxisf(phi) = sum(zs[i]*np.sin(i*nfp*phi) for i in range(len(zs)))`. -/
def Qsc.Zaxisf (c : Qsc α) (phi : α) : α :=
  (c.zs.enum.map (fun p => p.2 * c.tr.sinF (p.1 * c.nfp * phi))).sum

def Qsc.tangentR (c : Qsc α) (phi : α) : α :=
  c.sp_tangentR (npmod phi (2 * c.tr.pi / c.nfp))

def Qsc.tangentZ (c : Qsc α) (phi : α) : α :=
  c.sp_tangentZ (npmod phi (2 * c.tr.pi / c.nfp))

def Qsc.normalR (c : Qsc α) (phi : α) : α :=
  c.sp_normalR (npmod phi (2 * c.tr.pi / c.nfp))

def Qsc.normalZ (c : Qsc α) (phi : α) : α :=
  c.sp_normalZ (npmod phi (2 * c.tr.pi / c.nfp))

def Qsc.binormalR (c : Qsc α) (phi : α) : α :=
  c.sp_binormalR (npmod phi (2 * c.tr.pi / c.nfp))

def Qsc.binormalZ (c : Qsc α) (phi : α) : α :=
  c.sp_binormalZ (npmod phi (2 * c.tr.pi / c.nfp))

def Qsc.X1cF (c : Qsc α) (phi : α) : α :=
  c.sp_X1c (npmod phi (2 * c.tr.pi / c.nfp))

def Qsc.X1sF (c : Qsc α) (phi : α) : α :=
  c.sp_X1s (npmod phi (2 * c.tr.pi / c.nfp))

def Qsc.Y1cF (c : Qsc α) (phi : α) : α :=
  c.sp_Y1c (npmod phi (2 * c.tr.pi / c.nfp))

def Qsc.Y1sF (c : Qsc α) (phi : α) : α :=
  c.sp_Y1s (npmod phi (2 * c.tr.pi / c.nfp))

def Qsc.X20F (c : Qsc α) (phi : α) : α :=
  c.sp_X20 (npmod phi (2 * c.tr.pi / c.nfp))

def Qsc.X2cF (c : Qsc α) (phi : α) : α :=
  c.sp_X2c (npmod phi (2 * c.tr.pi / c.nfp))

def Qsc.X2sF (c : Qsc α) (phi : α) : α :=
  c.sp_X2s (npmod phi (2 * c.tr.pi / c.nfp))

def Qsc.Y20F (c : Qsc α) (phi : α) : α :=
  c.sp_Y20 (npmod phi (2 * c.tr.pi / c.nfp))

def Qsc.Y2cF (c : Qsc α) (phi : α) : α :=
  c.sp_Y2c (npmod phi (2 * c.tr.pi / c.nfp))

def Qsc.Y2sF (c : Qsc α) (phi : α) : α :=
  c.sp_Y2s (npmod phi (2 * c.tr.pi / c.nfp))

def Qsc.Z20F (c : Qsc α) (phi : α) : α :=
  c.sp_Z20 (npmod phi (2 * c.tr.pi / c.nfp))

def Qsc.Z2cF (c : Qsc α) (phi : α) : α :=
  c.sp_Z2c (npmod phi (2 * c.tr.pi / c.nfp))

def Qsc.Z2sF (c : Qsc α) (phi : α) : α :=
  c.sp_Z2s (npmod phi (2 * c.tr.pi / c.nfp))

def Qsc.B20F (c : Qsc α) (phi : α) : α :=
  c.sp_B20 (npmod phi (2 * c.tr.pi / c.nfp))

/-- `rSurf(r, phi, theta)` (lines 98-106): the cylindrical radius of the
surface point, `r0 + r*r1 + r**2*r2`, with `r2` present only for orders other
than `'r1'`. -/
def Qsc.rSurf (c : Qsc α) (r phi theta : α) : α :=
  let thetaN := theta - (c.iota - c.iotaN) * phi
  let r0 := c.Raxisf phi
  let r1 := (c.X1cF phi * c.tr.cosF thetaN + c.X1sF phi * c.tr.sinF thetaN) *
      c.normalR phi +
    (c.Y1cF phi * c.tr.cosF thetaN + c.Y1sF phi * c.tr.sinF thetaN) *
      c.binormalR phi
  let r2 := if c.order ≠ "r1" then
      (c.X20F phi + c.X2cF phi * c.tr.cosF (2 * thetaN) +
        c.X2sF phi * c.tr.sinF (2 * thetaN)) * c.normalR phi +
      (c.Y20F phi + c.Y2cF phi * c.tr.cosF (2 * thetaN) +
        c.Y2sF phi * c.tr.sinF (2 * thetaN)) * c.binormalR phi +
      (c.Z20F phi + c.Z2cF phi * c.tr.cosF (2 * thetaN) +
        c.Z2sF phi * c.tr.sinF (2 * thetaN)) * c.tangentR phi
    else 0
  r0 + r * r1 + r ^ 2 * r2

/-- `zSurf(r, phi, theta)` (lines 107-115): the vertical coordinate of the
surface point. -/
def Qsc.zSurf (c : Qsc α) (r phi theta : α) : α :=
  let thetaN := theta - (c.iota - c.iotaN) * phi
  let z0 := c.Zaxisf phi
  let z1 := (c.X1cF phi * c.tr.cosF thetaN + c.X1sF phi * c.tr.sinF thetaN) *
      c.normalZ phi +
    (c.Y1cF phi * c.tr.cosF thetaN + c.Y1sF phi * c.tr.sinF thetaN) *
      c.binormalZ phi
  let z2 := if c.order ≠ "r1" then
      (c.X20F phi + c.X2cF phi * c.tr.cosF (2 * thetaN) +
        c.X2sF phi * c.tr.sinF (2 * thetaN)) * c.normalZ phi +
      (c.Y20F phi + c.Y2cF phi * c.tr.cosF (2 * thetaN) +
        c.Y2sF phi * c.tr.sinF (2 * thetaN)) * c.binormalZ phi +
      (c.Z20F phi + c.Z2cF phi * c.tr.cosF (2 * thetaN) +
        c.Z2sF phi * c.tr.sinF (2 * thetaN)) * c.tangentZ phi
    else 0
  z0 + r * z1 + r ^ 2 * z2

/-- `Bf(r, phi, theta)` (lines 149-154), exactly as written in the source:
the second-order correction multiplies `B2c` and `B2s` by `np.cos(thetaN)` and
`np.sin(thetaN)` — the *first* harmonic of the corrected poloidal angle. -/
def Qsc.Bf (c : Qsc α) (r phi theta : α) : α :=
  let thetaN := theta - (c.iota - c.iotaN) * phi
  if c.order = "r1" then c.B0 * (1 + r * c.etabar * c.tr.cosF thetaN)
  else c.B0 * (1 + r * c.etabar * c.tr.cosF thetaN) +
    r * r * (c.B20F phi + c.B2c * c.tr.cosF thetaN + c.B2s * c.tr.sinF thetaN)

/-- Modelled from the spec: the field magnitude with the second-order
correction `r^2 * (B20(phi) + B2c*cos(2*thetaN) + B2s*sin(2*thetaN))` using
the *second* harmonics, as the specification states (and as the source's own
convention for the 2-subscripted shape coefficients `X2c`, `X2s`, ... in
`rSurf`/`zSurf` does). -/
def Qsc.BfSpec (c : Qsc α) (r phi theta : α) : α :=
  let thetaN := theta - (c.iota - c.iotaN) * phi
  if c.order = "r1" then c.B0 * (1 + r * c.etabar * c.tr.cosF thetaN)
  else c.B0 * (1 + r * c.etabar * c.tr.cosF thetaN) +
    r * r * (c.B20F phi + c.B2c * c.tr.cosF (2 * thetaN) +
      c.B2s * c.tr.sinF (2 * thetaN))

/-! ## Claims C1, C2 and C7 -/

omit [FloorRing α] in
theorem Raxisf_add_period (c : Qsc α) (phi : α) :
    c.Raxisf (phi + 2 * c.tr.pi / c.nfp) = c.Raxisf phi := by
  unfold Qsc.Raxisf
  refine congrArg List.sum (List.map_congr_left (fun p _ => ?_))
  by_cases hn : (c.nfp : α) = 0
  · have harg : (p.1 : α) * c.nfp * (phi + 2 * c.tr.pi / c.nfp) =
        (p.1 : α) * c.nfp * phi := by
      rw [hn]
      ring
    rw [harg]
  · have harg : (p.1 : α) * c.nfp * (phi + 2 * c.tr.pi / c.nfp) =
        (p.1 : α) * c.nfp * phi + 2 * c.tr.pi * ((p.1 : ℤ) : α) := by
      push_cast
      field_simp
      ring
    rw [harg, c.tr.cos_period]

omit [FloorRing α] in
theorem Zaxisf_add_period (c : Qsc α) (phi : α) :
    c.Zaxisf (phi + 2 * c.tr.pi / c.nfp) = c.Zaxisf phi := by
  unfold Qsc.Zaxisf
  refine congrArg List.sum (List.map_congr_left (fun p _ => ?_))
  by_cases hn : (c.nfp : α) = 0
  · have harg : (p.1 : α) * c.nfp * (phi + 2 * c.tr.pi / c.nfp) =
        (p.1 : α) * c.nfp * phi := by
      rw [hn]
      ring
    rw [harg]
  · have harg : (p.1 : α) * c.nfp * (phi + 2 * c.tr.pi / c.nfp) =
        (p.1 : α) * c.nfp * phi + 2 * c.tr.pi * ((p.1 : ℤ) : α) := by
      push_cast
      field_simp
      ring
    rw [harg, c.tr.sin_period]

/-- C7: at radius `r = 0` the surface evaluation collapses to the magnetic
axis for every configuration and every `phi`, `theta`: both coordinates
equal the truncated Fourier axis sums, independently of `theta`. -/
theorem surf_zero_radius_is_axis (c : Qsc α) (phi theta : α) :
    c.rSurf 0 phi theta = c.Raxisf phi ∧ c.zSurf 0 phi theta = c.Zaxisf phi := by
  constructor
  · unfold Qsc.rSurf
    dsimp only []
    ring
  · unfold Qsc.zSurf
    dsimp only []
    ring

/-- C2 (amended): shifting the toroidal angle by one field period `2*pi/nfp`
reproduces the surface evaluation at a poloidal angle shifted by
`(iota - iotaN) * 2*pi/nfp`; in particular, pointwise periodicity in `phi`
alone holds exactly when `iota = iotaN`. -/
theorem surf_period_shift (c : Qsc α) (r phi theta : α) :
    c.rSurf r (phi + 2 * c.tr.pi / c.nfp) theta =
      c.rSurf r phi (theta - (c.iota - c.iotaN) * (2 * c.tr.pi / c.nfp)) ∧
    c.zSurf r (phi + 2 * c.tr.pi / c.nfp) theta =
      c.zSurf r phi (theta - (c.iota - c.iotaN) * (2 * c.tr.pi / c.nfp)) := by
  have hm : npmod (phi + 2 * c.tr.pi / c.nfp) (2 * c.tr.pi / c.nfp) =
      npmod phi (2 * c.tr.pi / c.nfp) := npmod_add_right _ _
  have harg : theta - (c.iota - c.iotaN) * (phi + 2 * c.tr.pi / c.nfp) =
      theta - (c.iota - c.iotaN) * (2 * c.tr.pi / c.nfp) -
        (c.iota - c.iotaN) * phi := by
    ring
  constructor
  · unfold Qsc.rSurf Qsc.X1cF Qsc.X1sF Qsc.Y1cF Qsc.Y1sF Qsc.normalR
      Qsc.binormalR Qsc.X20F Qsc.X2cF Qsc.X2sF Qsc.Y20F Qsc.Y2cF Qsc.Y2sF
      Qsc.Z20F Qsc.Z2cF Qsc.Z2sF Qsc.tangentR
    dsimp only []
    rw [hm, harg, Raxisf_add_period]
  · unfold Qsc.zSurf Qsc.X1cF Qsc.X1sF Qsc.Y1cF Qsc.Y1sF Qsc.normalZ
      Qsc.binormalZ Qsc.X20F Qsc.X2cF Qsc.X2sF Qsc.Y20F Qsc.Y2cF Qsc.Y2sF
      Qsc.Z20F Qsc.Z2cF Qsc.Z2sF Qsc.tangentZ
    dsimp only []
    rw [hm, harg, Zaxisf_add_period]

/-- The concrete trigonometric environment: `Real.cos`, `Real.sin`,
`Real.pi`. -/
noncomputable def realTrig : Trig ℝ where
  pi := Real.pi
  cosF := Real.cos
  sinF := Real.sin
  cos_period := fun x k => by
    rw [show x + 2 * Real.pi * (k : ℝ) = x + (k : ℝ) * (2 * Real.pi) from by ring]
    exact Real.cos_add_int_mul_two_pi x k
  sin_period := fun x k => by
    rw [show x + 2 * Real.pi * (k : ℝ) = x + (k : ℝ) * (2 * Real.pi) from by ring]
    exact Real.sin_add_int_mul_two_pi x k

/-- A base configuration over `ℝ`: `nfp = 1`, empty axis coefficient lists,
order `'r1'`, `B0 = 1`, all other scalars and all spline interpolants zero. -/
noncomputable def zeroQsc : Qsc ℝ where
  tr := realTrig
  nfp := 1
  rc := []
  zs := []
  iota := 0
  iotaN := 0
  order := "r1"
  B0 := 1
  etabar := 0
  B2c := 0
  B2s := 0
  sp_tangentR := fun _ => 0
  sp_tangentZ := fun _ => 0
  sp_normalR := fun _ => 0
  sp_normalZ := fun _ => 0
  sp_binormalR := fun _ => 0
  sp_binormalZ := fun _ => 0
  sp_X1c := fun _ => 0
  sp_X1s := fun _ => 0
  sp_Y1c := fun _ => 0
  sp_Y1s := fun _ => 0
  sp_X20 := fun _ => 0
  sp_X2c := fun _ => 0
  sp_X2s := fun _ => 0
  sp_Y20 := fun _ => 0
  sp_Y2c := fun _ => 0
  sp_Y2s := fun _ => 0
  sp_Z20 := fun _ => 0
  sp_Z2c := fun _ => 0
  sp_Z2s := fun _ => 0
  sp_B20 := fun _ => 0

/-- The configuration refuting C2: `iota = 1/2`, `iotaN = 0`, constant
interpolants `X1c = 1` and `normalR = 1`. -/
noncomputable def cfgC2 : Qsc ℝ :=
  { zeroQsc with iota := 1 / 2, sp_X1c := fun _ => 1, sp_normalR := fun _ => 1 }

/-- C2 (counterexample): for `iota = 1/2 ≠ 0 = iotaN` the surface evaluation
is not pointwise periodic in `phi` with period `2*pi/nfp`: at
`r = 1, phi = 0, theta = 0` the radius changes from `1` to `-1` after one
field period. -/
theorem rSurf_phi_period_fails :
    cfgC2.rSurf 1 (0 + 2 * Real.pi / (cfgC2.nfp : ℝ)) 0 ≠ cfgC2.rSurf 1 0 0 := by
  have harg : (0 : ℝ) - (cfgC2.iota - cfgC2.iotaN) *
      (0 + 2 * Real.pi / (cfgC2.nfp : ℝ)) = -Real.pi := by
    show (0 : ℝ) - ((1 / 2 : ℝ) - 0) * (0 + 2 * Real.pi / ((1 : ℕ) : ℝ)) = -Real.pi
    push_cast
    ring
  have h1 : cfgC2.rSurf 1 (0 + 2 * Real.pi / (cfgC2.nfp : ℝ)) 0 = -1 := by
    unfold Qsc.rSurf
    dsimp only []
    rw [harg]
    simp [cfgC2, zeroQsc, realTrig, Qsc.Raxisf, Qsc.X1cF, Qsc.X1sF, Qsc.Y1cF,
      Qsc.Y1sF, Qsc.normalR, Qsc.binormalR, Real.cos_pi]
  have h2 : cfgC2.rSurf 1 0 0 = 1 := by
    unfold Qsc.rSurf
    dsimp only []
    simp [cfgC2, zeroQsc, realTrig, Qsc.Raxisf, Qsc.X1cF, Qsc.X1sF, Qsc.Y1cF,
      Qsc.Y1sF, Qsc.normalR, Qsc.binormalR, Real.cos_zero]
  rw [h1, h2]
  norm_num

/-- The configuration exposing the C1 divergence: a higher-order
configuration (`order = 'r2'`) with `B0 = 1`, `etabar = 0`, `B2c = 1`,
`B2s = 0`, `B20` identically zero and `iota = iotaN = 0`. -/
noncomputable def cfgC1 : Qsc ℝ :=
  { zeroQsc with order := "r2", B2c := 1 }

/-- C1: at `r = 1, phi = 0, theta = pi/2` the source's `Bf` yields `1`
(because its second-order term multiplies `B2c` by `cos(thetaN)`, which
vanishes at `pi/2`), while the specified field magnitude — with the
second-harmonic factor `cos(2*thetaN)` — yields `0`; the two disagree. -/
theorem Bf_second_order_first_harmonic_bug :
    cfgC1.Bf 1 0 (Real.pi / 2) = 1 ∧
    cfgC1.BfSpec 1 0 (Real.pi / 2) = 0 ∧
    cfgC1.Bf 1 0 (Real.pi / 2) ≠ cfgC1.BfSpec 1 0 (Real.pi / 2) := by
  have hord : ¬ cfgC1.order = "r1" := by decide
  have harg : Real.pi / 2 - (cfgC1.iota - cfgC1.iotaN) * 0 = Real.pi / 2 := by
    show Real.pi / 2 - ((0 : ℝ) - 0) * 0 = Real.pi / 2
    ring
  have h1 : cfgC1.Bf 1 0 (Real.pi / 2) = 1 := by
    unfold Qsc.Bf
    dsimp only []
    rw [harg, if_neg hord]
    simp [cfgC1, zeroQsc, realTrig, Qsc.B20F, Real.cos_pi_div_two]
  have h2 : cfgC1.BfSpec 1 0 (Real.pi / 2) = 0 := by
    unfold Qsc.BfSpec
    dsimp only []
    rw [harg, if_neg hord,
      show (2 : ℝ) * (Real.pi / 2) = Real.pi from by ring]
    simp [cfgC1, zeroQsc, realTrig, Qsc.B20F, Real.cos_pi, Real.cos_pi_div_two]
  exact ⟨h1, h2, by rw [h1, h2]; norm_num⟩

end PyQSC
